import Mathlib

/-
Verification of the channel library (azerum/ts-channel).

The development shallow-embeds the source files:
  - src/_FifoRingBuffer.ts   (FifoRingBuffer: fixed-capacity FIFO ring)
  - src/Channel.ts           (Channel: buffered/unbuffered channel state machine)
  - src/makeAbortablePromise.ts and src/AbortablePromise.ts (abortable promises)
  - select (channel-array variant with the empty-argument check and the
    tryRead-or-re-arm dispatch loop)

JS numbers that only count are embedded as Nat; the ring buffer's `_length`,
which JS decrements without a guard, is embedded as Int. Promise resolutions
and rejections are effects outside the heap, so they are embedded as explicit
outcome values returned next to the successor state. The sets of resume
callbacks (`readableWaits`, `writableWaits`, `blockedReads`) are embedded by
their sizes: adding a fresh closure is +1, `resolveSome*` is -1 (truncated),
draining is 0.
-/

/-- Embeds the class `FifoRingBuffer<T>` of src/_FifoRingBuffer.ts.
The JS backing array `Array(capacity)` (which may hold holes) is a total
function from indices to `Option T`; `none` is a hole. -/
structure FifoRingBuffer (T : Type) where
  capacity : Nat
  buffer : Nat → Option T
  readPointer : Option Nat
  writePointer : Option Nat
  length : Int

namespace FifoRingBuffer

/-- Embeds the constructor of `FifoRingBuffer` (capacity is a `Nat`, so the
integer/non-negativity validation cannot fail). -/
def new (T : Type) (capacity : Nat) : FifoRingBuffer T where
  capacity := capacity
  buffer := fun _ => none
  readPointer := none
  writePointer := if capacity = 0 then none else some 0
  length := 0

/-- Embeds `FifoRingBuffer.write`: returns whether the value was stored,
and the successor buffer. -/
def write (b : FifoRingBuffer T) (v : T) : Bool × FifoRingBuffer T :=
  match b.writePointer with
  | none => (false, b)
  | some wp =>
    let rp := b.readPointer.getD wp
    let next := (wp + 1) % b.capacity
    (true,
      { b with
          buffer := fun j => if j = wp then some v else b.buffer j
          readPointer := some rp
          writePointer := if next = rp then none else some next
          length := b.length + 1 })

/-- Embeds `FifoRingBuffer.read`: returns the value at the read pointer
(`undefined` when the buffer is empty) and the successor buffer. -/
def read (b : FifoRingBuffer T) : Option T × FifoRingBuffer T :=
  match b.readPointer with
  | none => (none, b)
  | some rp =>
    let wp := b.writePointer.getD rp
    let next := (rp + 1) % b.capacity
    (b.buffer rp,
      { b with
          writePointer := some wp
          readPointer := if next = wp then none else some next
          length := b.length - 1 })

/-- Refinement invariant: the ring buffer represents the FIFO queue `q`
(front of `q` = next value read). -/
def ringInv (b : FifoRingBuffer T) (q : List T) : Prop :=
  b.length = (q.length : Int) ∧
  q.length ≤ b.capacity ∧
  (match b.readPointer with
   | none => q = []
   | some r =>
       q ≠ [] ∧ r < b.capacity ∧
       ∀ i, i < q.length → b.buffer ((r + i) % b.capacity) = q[i]?) ∧
  (match b.writePointer with
   | none => q.length = b.capacity
   | some w =>
       q.length < b.capacity ∧
       match b.readPointer with
       | none => w < b.capacity
       | some r => w = (r + q.length) % b.capacity)

end FifoRingBuffer


/-- Outcome of `Channel.write` as the caller observes it:
an argument error for `undefined`, `CannotWriteIntoClosedChannel` on a closed
channel, a value handed directly to a blocked `read`, a value stored in the
buffer, or the write enqueued on `blockedWrites` (the returned promise stays
pending). -/
inductive WriteOutcome where
  | errUndefined
  | errClosed
  | deliveredToRead
  | buffered
  | blocked
deriving DecidableEq, Repr

/-- Outcome of `Channel.read`: a value, `undefined` because the channel is
drained and closed, or enqueued on `blockedReads` (promise pending). -/
inductive ReadOutcome (T : Type) where
  | value (v : T)
  | closedEmpty
  | blocked
deriving DecidableEq, Repr

/-- Outcome of `waitUntilReadable` / `waitUntilWritable`: the executor either
resolves the promise synchronously or registers a resume callback in the
corresponding waiter set. -/
inductive WaitOutcome where
  | immediate
  | registered
deriving DecidableEq, Repr

/-- What `Channel.close` does to the parties blocked on the channel:
how many blocked reads were resolved with `undefined`, the values of the
blocked writes rejected with `CannotWriteIntoClosedChannel`, and how many
readable/writable waits were resolved. -/
structure CloseEvents (T : Type) where
  readsResolvedUndefined : Nat
  writesRejectedClosed : List T
  readableWaitsResolved : Nat
  writableWaitsResolved : Nat
deriving DecidableEq, Repr

/-- Embeds the class `Channel<T>` of src/Channel.ts. `blockedWrites` holds the
values of the pending writes in queue order; `blockedReads`, `readableWaits`
and `writableWaits` are the sizes of the corresponding collections of resume
callbacks. -/
structure Channel (T : Type) where
  capacity : Nat
  buffer : FifoRingBuffer T
  blockedWrites : List T
  blockedReads : Nat
  readableWaits : Nat
  writableWaits : Nat
  closed : Bool

namespace Channel

/-- Embeds the `Channel` constructor. -/
def new (T : Type) (capacity : Nat) : Channel T where
  capacity := capacity
  buffer := FifoRingBuffer.new T capacity
  blockedWrites := []
  blockedReads := 0
  readableWaits := 0
  writableWaits := 0
  closed := false

/-- Embeds the getter `readableWaitsCount`. -/
def readableWaitsCount (ch : Channel T) : Nat := ch.readableWaits

/-- Embeds the getter `writableWaitsCount`. -/
def writableWaitsCount (ch : Channel T) : Nat := ch.writableWaits

/-- Embeds `Channel.write`. The argument is `Option T` so that writing the JS
value `undefined` (`none` here) is expressible. Resolving the popped blocked
read with the value is the `deliveredToRead` outcome; `resolveSomeReadableWait`
removes one callback from `readableWaits` (truncated subtraction: removing
from an empty set does nothing). -/
def write (ch : Channel T) (value : Option T) : WriteOutcome × Channel T :=
  match value with
  | none => (.errUndefined, ch)
  | some v =>
    if ch.closed then (.errClosed, ch)
    else if 0 < ch.blockedReads then
      (.deliveredToRead, { ch with blockedReads := ch.blockedReads - 1 })
    else
      let ch1 := { ch with readableWaits := ch.readableWaits - 1 }
      match ch1.buffer.write v with
      | (true, b2) => (.buffered, { ch1 with buffer := b2 })
      | (false, _) => (.blocked, { ch1 with blockedWrites := ch1.blockedWrites ++ [v] })

/-- Embeds `Channel.tryRead`. -/
def tryRead (ch : Channel T) : Option T × Channel T :=
  if ch.capacity = 0 then
    match ch.blockedWrites with
    | [] => (none, ch)
    | w :: rest => (some w, { ch with blockedWrites := rest })
  else
    match ch.buffer.read with
    | (none, _) => (none, ch)
    | (some v, b2) =>
      match ch.blockedWrites with
      | [] =>
        (some v, { ch with buffer := b2, writableWaits := ch.writableWaits - 1 })
      | w :: rest =>
        (some v, { ch with buffer := (b2.write w).2, blockedWrites := rest })

/-- Embeds `Channel.read`. -/
def read (ch : Channel T) : ReadOutcome T × Channel T :=
  match ch.tryRead with
  | (some v, ch2) => (.value v, ch2)
  | (none, ch2) =>
    if ch.closed then (.closedEmpty, ch2)
    else
      (.blocked, { ch2 with
        writableWaits := ch2.writableWaits - 1
        blockedReads := ch2.blockedReads + 1 })

/-- Embeds the executor of `Channel.waitUntilReadable` (run synchronously by
`AbortablePromise` when the signal is not already aborted). -/
def waitUntilReadable (ch : Channel T) : WaitOutcome × Channel T :=
  if ch.closed then (.immediate, ch)
  else if 0 < ch.buffer.length ∨ 0 < ch.blockedWrites.length then (.immediate, ch)
  else (.registered, { ch with readableWaits := ch.readableWaits + 1 })

/-- Embeds the executor of `Channel.waitUntilWritable`. -/
def waitUntilWritable (ch : Channel T) : WaitOutcome × Channel T :=
  if ch.closed then (.immediate, ch)
  else if ch.buffer.length < (ch.capacity : Int) ∨ 0 < ch.blockedReads then
    (.immediate, ch)
  else (.registered, { ch with writableWaits := ch.writableWaits + 1 })

/-- Embeds `Channel.close`: idempotent; resolves every blocked read with
`undefined`, rejects every blocked write with `CannotWriteIntoClosedChannel`,
resolves and clears both waiter sets. -/
def close (ch : Channel T) : CloseEvents T × Channel T :=
  if ch.closed then (⟨0, [], 0, 0⟩, ch)
  else
    (⟨ch.blockedReads, ch.blockedWrites, ch.readableWaits, ch.writableWaits⟩,
      { ch with
          closed := true
          blockedReads := 0
          blockedWrites := []
          readableWaits := 0
          writableWaits := 0 })

end Channel

/-- One public operation of `Channel` (the ones a caller can invoke; each runs
atomically within one cooperative step). -/
inductive ChanOp (T : Type) where
  | write (value : Option T)
  | read
  | tryRead
  | waitUntilReadable
  | waitUntilWritable
  | close

namespace Channel

/-- The state reached after one public operation. -/
def step (ch : Channel T) (op : ChanOp T) : Channel T :=
  match op with
  | .write v => (ch.write v).2
  | .read => (ch.read).2
  | .tryRead => (ch.tryRead).2
  | .waitUntilReadable => (ch.waitUntilReadable).2
  | .waitUntilWritable => (ch.waitUntilWritable).2
  | .close => (ch.close).2

/-- The state of a fresh channel of capacity `cap` after a finite sequence of
public operations. -/
def run (T : Type) (cap : Nat) (ops : List (ChanOp T)) : Channel T :=
  ops.foldl step (new T cap)

end Channel

/-- The FIFO queue a ring buffer currently holds, read off the ring state
(front first). On states satisfying `ringInv` this recovers the represented
queue. -/
def FifoRingBuffer.toList (b : FifoRingBuffer T) : List T :=
  match b.readPointer with
  | none => []
  | some r =>
    (List.range b.length.toNat).filterMap fun i => b.buffer ((r + i) % b.capacity)

/-- One operation of `FifoRingBuffer` in isolation. -/
inductive RingOp (T : Type) where
  | write (v : T)
  | read

/-- The ring buffer reached from a fresh one of capacity `cap` by a finite
sequence of `write` / `read` operations. -/
def runRing (T : Type) (cap : Nat) (ops : List (RingOp T)) : FifoRingBuffer T :=
  ops.foldl
    (fun b op =>
      match op with
      | .write v => (b.write v).2
      | .read => (b.read).2)
    (FifoRingBuffer.new T cap)

/-- A sequence of `Channel.write` calls from one task, in order: the list of
outcomes and the final state. -/
def writeAll : Channel T → List T → List WriteOutcome × Channel T
  | ch, [] => ([], ch)
  | ch, v :: rest =>
    let p := ch.write (some v)
    let pr := writeAll p.2 rest
    (p.1 :: pr.1, pr.2)

/-- A sequence of `n` `Channel.read` calls from one task, in order. -/
def readAll : Channel T → Nat → List (ReadOutcome T) × Channel T
  | ch, 0 => ([], ch)
  | ch, n + 1 =>
    let p := ch.read
    let pr := readAll p.2 n
    (p.1 :: pr.1, pr.2)

/-- Result of the entry phase of `select(channels, signal?)`: either the
synchronous argument error, or the channel states after arming one
`waitUntilReadable` wait per channel. -/
inductive SelectInit (T : Type) where
  | error (message : String)
  | armed (channels : List (Channel T))

/-- Embeds the entry of `select`: the empty-argument check, then arming a
`waitUntilReadable(index, usedSignal)` wait on every channel. -/
def selectInit (channels : List (Channel T)) : SelectInit T :=
  if channels.length = 0 then
    SelectInit.error "select() requires at least one channel"
  else
    SelectInit.armed (channels.map fun ch => (ch.waitUntilReadable).2)

/-- Embeds one iteration of the `select` loop body on the channel whose wait
won `Promise.race`: `tryRead`; if it yields a value or the channel is closed,
`select` aborts the other waits and resolves (first component `some result`);
otherwise (a steal) the first component is `none` and the arm's promise is
replaced by a freshly armed `waitUntilReadable` wait. -/
def selectDispatch (ch : Channel T) : Option (Option T) × Channel T :=
  match ch.tryRead with
  | (some v, ch2) => (some (some v), ch2)
  | (none, ch2) =>
    if ch2.closed then (some none, ch2)
    else (none, (ch2.waitUntilReadable).2)

/-- How an abortable promise stands after construction: resolved, rejected
with `AbortedError`, rejected with the executor's error, or still pending. -/
inductive APOutcome (E K : Type) where
  | resolved (v : K)
  | rejectedAborted
  | rejectedWith (e : E)
  | pending

/-- Observable result of constructing an abortable promise over an ambient
state `S`: the promise outcome, the state (which only the executor can
change), whether the executor ran, and whether an abort listener was added
to the signal. -/
structure APRun (S E K : Type) where
  outcome : APOutcome E K
  state : S
  executorInvoked : Bool
  listenerAdded : Bool

/-- Embeds `makeAbortablePromise` of src/makeAbortablePromise.ts. The signal
is `none` (absent) or `some aborted`; the executor is a state transformer
that may settle the promise synchronously (`Except.ok` for resolve,
`Except.error` for reject) and may return a cleanup callback. -/
def makeAbortablePromise (signal : Option Bool)
    (executor : S → S × Option (Except E K) × Option (S → S)) (s : S) :
    APRun S E K :=
  if signal = some true then
    ⟨.rejectedAborted, s, false, false⟩
  else
    let r := executor s
    match r.2.1 with
    | some (Except.ok v) => ⟨.resolved v, r.1, true, false⟩
    | some (Except.error e) => ⟨.rejectedWith e, r.1, true, false⟩
    | none => ⟨.pending, r.1, true, signal.isSome⟩

/-- Embeds the constructor of the class `AbortablePromise` of
src/AbortablePromise.ts (the same control flow as `makeAbortablePromise`). -/
def AbortablePromise (signal : Option Bool)
    (executor : S → S × Option (Except E K) × Option (S → S)) (s : S) :
    APRun S E K :=
  if signal = some true then
    ⟨.rejectedAborted, s, false, false⟩
  else
    let r := executor s
    match r.2.1 with
    | some (Except.ok v) => ⟨.resolved v, r.1, true, false⟩
    | some (Except.error e) => ⟨.rejectedWith e, r.1, true, false⟩
    | none => ⟨.pending, r.1, true, signal.isSome⟩

/-- The reachable-state invariant of `Channel`, tying the ring buffer to the
FIFO queue `q` it represents and recording the mutual-exclusion facts between
the waiter collections. -/
def ChanInv (ch : Channel T) : Prop :=
  ch.buffer.capacity = ch.capacity ∧
  ∃ q : List T,
    FifoRingBuffer.ringInv ch.buffer q ∧
    (0 < ch.blockedReads → q = [] ∧ ch.blockedWrites = []) ∧
    (0 < ch.readableWaits → ch.closed = false) ∧
    (ch.closed = true →
      ch.blockedWrites = [] ∧ ch.blockedReads = 0 ∧
      ch.readableWaits = 0 ∧ ch.writableWaits = 0) ∧
    (ch.blockedWrites ≠ [] → q.length = ch.capacity)

section ModFacts

/-- Stepping `k` slots forward from `r` returns to `r` exactly when `k` is a
full lap of the ring. -/
theorem mod_cycle_eq_iff {cap r k : Nat} (hr : r < cap) (hk1 : 0 < k)
    (hk2 : k ≤ cap) : (r + k) % cap = r ↔ k = cap := by
  constructor
  · intro h
    have hmod : r % cap = (r + k) % cap := by rw [h, Nat.mod_eq_of_lt hr]
    have hdvd : cap ∣ (r + k) - r := (Nat.modEq_iff_dvd' (Nat.le_add_right r k)).mp hmod
    have : cap ∣ k := by simpa using hdvd
    have := Nat.le_of_dvd hk1 this
    omega
  · intro h
    subst h
    rw [Nat.add_mod_right]
    exact Nat.mod_eq_of_lt hr

/-- Two positions fewer than a lap apart are distinct slots of the ring. -/
theorem mod_cycle_ne {cap r i j : Nat} (hij : i < j) (hj : j - i < cap) :
    (r + i) % cap ≠ (r + j) % cap := by
  intro h
  have hmod : (r + i) % cap = (r + j) % cap := h
  have hdvd : cap ∣ (r + j) - (r + i) :=
    (Nat.modEq_iff_dvd' (by omega)).mp hmod
  have : cap ∣ j - i := by
    have : (r + j) - (r + i) = j - i := by omega
    rwa [this] at hdvd
  have := Nat.le_of_dvd (by omega) this
  omega

end ModFacts

namespace FifoRingBuffer

theorem ringInv_new (T : Type) (cap : Nat) : ringInv (new T cap) [] := by
  refine ⟨rfl, by simp, by simp [new], ?_⟩
  by_cases h : cap = 0 <;> simp [new, h, Nat.pos_of_ne_zero]

/-- A write into a ring with room succeeds and appends to the represented
queue. Capacity is unchanged. -/
theorem write_of_room {T : Type} {b : FifoRingBuffer T} {q : List T} (v : T)
    (h : ringInv b q) (hroom : q.length < b.capacity) :
    (b.write v).1 = true ∧ ringInv (b.write v).2 (q ++ [v]) ∧
      (b.write v).2.capacity = b.capacity := by
  obtain ⟨hlen, hle, hrp, hwp⟩ := h
  have hcap : 0 < b.capacity := by omega
  match hw : b.writePointer with
  | none =>
    rw [hw] at hwp
    omega
  | some w =>
    rw [hw] at hwp
    obtain ⟨hwlt, hwrel⟩ := hwp
    match hr : b.readPointer with
    | none =>
      -- queue is empty; the written slot becomes both the head and the tail
      rw [hr] at hrp hwrel
      subst hrp
      have hres : b.write v = (true,
          { b with
              buffer := fun j => if j = w then some v else b.buffer j
              readPointer := some w
              writePointer := if (w + 1) % b.capacity = w then none
                else some ((w + 1) % b.capacity)
              length := b.length + 1 }) := by
        simp [write, hw, hr]
      rw [hres]
      refine ⟨rfl, ⟨?_, ?_, ?_, ?_⟩, rfl⟩
      · simp only [List.nil_append, List.length_cons, List.length_nil] at *
        omega
      · simpa using hcap
      · refine ⟨by simp, hwrel, ?_⟩
        intro i hi
        simp only [List.nil_append, List.length_cons, List.length_nil] at hi
        have hi0 : i = 0 := by omega
        subst hi0
        simp [Nat.mod_eq_of_lt hwrel]
      · by_cases hone : (w + 1) % b.capacity = w
        · have h1 : (1 : Nat) = b.capacity := by
            have hiff := @mod_cycle_eq_iff b.capacity w 1
              hwrel (by omega) (by omega)
            exact hiff.mp hone
          simp only [if_pos hone]
          simpa using h1
        · simp only [if_neg hone]
          have hne1 : (1 : Nat) ≠ b.capacity := by
            intro hc
            exact hone ((@mod_cycle_eq_iff b.capacity w 1
              hwrel (by omega) (by omega)).mpr hc)
          refine ⟨by simpa using Nat.lt_of_le_of_ne hcap hne1, ?_⟩
          simp
    | some r =>
      rw [hr] at hrp hwrel
      obtain ⟨hqne, hrlt, hslots⟩ := hrp
      subst hwrel
      have hres : b.write v = (true,
          { b with
              buffer := fun j => if j = (r + q.length) % b.capacity
                then some v else b.buffer j
              readPointer := some r
              writePointer :=
                if ((r + q.length) % b.capacity + 1) % b.capacity = r then none
                else some (((r + q.length) % b.capacity + 1) % b.capacity)
              length := b.length + 1 }) := by
        simp [write, hw, hr]
      rw [hres]
      have hmod : ((r + q.length) % b.capacity + 1) % b.capacity
          = (r + (q.length + 1)) % b.capacity := by
        rw [Nat.mod_add_mod, ← Nat.add_assoc]
      refine ⟨rfl, ⟨?_, ?_, ?_, ?_⟩, rfl⟩
      · simp only [List.length_append, List.length_cons, List.length_nil] at *
        push_cast at hlen ⊢
        omega
      · simp only [List.length_append, List.length_cons, List.length_nil]
        omega
      · refine ⟨by simp, hrlt, ?_⟩
        intro i hi
        simp only [List.length_append, List.length_cons, List.length_nil] at hi
        by_cases hiq : i < q.length
        · have hne : (r + i) % b.capacity ≠ (r + q.length) % b.capacity :=
            mod_cycle_ne hiq (by omega)
          simp only [if_neg hne]
          rw [List.getElem?_append, if_pos hiq]
          exact hslots i hiq
        · have hiq' : i = q.length := by omega
          subst hiq'
          simp
      · by_cases hfull : q.length + 1 = b.capacity
        · have hcyc : ((r + q.length) % b.capacity + 1) % b.capacity = r := by
            rw [hmod]
            exact (mod_cycle_eq_iff hrlt (by omega) (by omega)).mpr hfull
          simp only [if_pos hcyc, List.length_append, List.length_cons,
            List.length_nil]
          omega
        · have hne : ((r + q.length) % b.capacity + 1) % b.capacity ≠ r := by
            rw [hmod]
            intro hc
            exact hfull ((mod_cycle_eq_iff hrlt (by omega) (by omega)).mp hc)
          simp only [if_neg hne]
          refine ⟨by simp; omega, ?_⟩
          simp only [List.length_append, List.length_cons, List.length_nil]
          rw [hmod]

/-- A write into a full ring fails and leaves the buffer unchanged. -/
theorem write_of_full {T : Type} {b : FifoRingBuffer T} {q : List T} (v : T)
    (h : ringInv b q) (hfull : ¬ q.length < b.capacity) :
    b.write v = (false, b) := by
  obtain ⟨hlen, hle, hrp, hwp⟩ := h
  match hw : b.writePointer with
  | none => simp [write, hw]
  | some w =>
    rw [hw] at hwp
    exact absurd hwp.1 hfull

/-- Reading a non-empty ring returns the queue head and represents the tail.
Capacity is unchanged. -/
theorem read_of_nonempty {T : Type} {b : FifoRingBuffer T} {v : T} {rest : List T}
    (h : ringInv b (v :: rest)) :
    (b.read).1 = some v ∧ ringInv (b.read).2 rest ∧
      (b.read).2.capacity = b.capacity := by
  obtain ⟨hlen, hle, hrp, hwp⟩ := h
  simp only [List.length_cons] at hlen hle
  match hr : b.readPointer with
  | none =>
    rw [hr] at hrp
    exact absurd hrp (by simp)
  | some r =>
    rw [hr] at hrp
    obtain ⟨-, hrlt, hslots⟩ := hrp
    have hcap : 0 < b.capacity := by omega
    have hhead : b.buffer r = some v := by
      have := hslots 0 (by simp)
      simpa [Nat.mod_eq_of_lt hrlt] using this
    -- the effective tail slot: the stored write pointer, or `r` for a full ring
    have hweff : b.writePointer.getD r = (r + (rest.length + 1)) % b.capacity := by
      match hw : b.writePointer with
      | none =>
        have hfull : rest.length + 1 = b.capacity := by
          rw [hw] at hwp
          simpa using hwp
        rw [Option.getD_none, hfull, Nat.add_mod_right, Nat.mod_eq_of_lt hrlt]
      | some w =>
        have hrel : w = (r + (rest.length + 1)) % b.capacity := by
          rw [hw] at hwp
          rw [hr] at hwp
          simpa using hwp.2
        rw [Option.getD_some, hrel]
    have hres : b.read = (b.buffer r,
        { b with
            writePointer := some ((r + (rest.length + 1)) % b.capacity)
            readPointer :=
              if (r + 1) % b.capacity = (r + (rest.length + 1)) % b.capacity
              then none
              else some ((r + 1) % b.capacity)
            length := b.length - 1 }) := by
      simp [read, hr, hweff]
    rw [hres]
    refine ⟨hhead, ⟨?_, ?_, ?_, ?_⟩, rfl⟩
    · show b.length - 1 = (rest.length : Int)
      push_cast at hlen ⊢
      omega
    · show rest.length ≤ b.capacity
      omega
    · match rest with
      | [] =>
        have heq : (r + 1) % b.capacity = (r + (0 + 1)) % b.capacity := by norm_num
        simp [List.length_nil, heq]
      | u :: us =>
        have hne' : (r + 1) % b.capacity ≠ (r + ((u :: us).length + 1)) % b.capacity := by
          have := @mod_cycle_ne b.capacity r 1
            ((u :: us).length + 1) (by simp) (by simp at hle ⊢; omega)
          simpa [Nat.add_assoc] using this
        simp only [if_neg hne']
        refine ⟨by simp, Nat.mod_lt _ hcap, ?_⟩
        intro i hi
        rw [Nat.mod_add_mod]
        have := hslots (i + 1) (by simp at hi ⊢; omega)
        have harr : r + 1 + i = r + (i + 1) := by omega
        rw [harr]
        simpa using this
    · match rest with
      | [] =>
        have heq : (r + 1) % b.capacity = (r + (0 + 1)) % b.capacity := by norm_num
        simp only [heq, if_pos rfl, List.length_nil]
        exact ⟨by omega, Nat.mod_lt _ hcap⟩
      | u :: us =>
        have hne' : (r + 1) % b.capacity ≠ (r + ((u :: us).length + 1)) % b.capacity := by
          have := @mod_cycle_ne b.capacity r 1
            ((u :: us).length + 1) (by simp) (by simp at hle ⊢; omega)
          simpa [Nat.add_assoc] using this
        simp only [if_neg hne']
        refine ⟨by simp at hle ⊢; omega, ?_⟩
        rw [Nat.mod_add_mod]
        have : r + 1 + (u :: us).length = r + ((u :: us).length + 1) := by omega
        rw [this]

/-- Reading an empty ring returns `undefined` and leaves the buffer unchanged. -/
theorem read_of_empty {T : Type} {b : FifoRingBuffer T}
    (h : ringInv b []) : b.read = (none, b) := by
  obtain ⟨hlen, hle, hrp, hwp⟩ := h
  match hr : b.readPointer with
  | none => simp [read, hr]
  | some r =>
    rw [hr] at hrp
    exact absurd hrp.1 (by simp)

end FifoRingBuffer

namespace FifoRingBuffer

/-- Pair form of `write_of_room`. -/
theorem write_eq_of_room {T : Type} {b : FifoRingBuffer T} {q : List T} (v : T)
    (h : ringInv b q) (hroom : q.length < b.capacity) :
    b.write v = (true, (b.write v).2) ∧ ringInv (b.write v).2 (q ++ [v]) ∧
      (b.write v).2.capacity = b.capacity := by
  obtain ⟨h1, h2, h3⟩ := write_of_room v h hroom
  refine ⟨?_, h2, h3⟩
  rw [← h1]

/-- Pair form of `read_of_nonempty`. -/
theorem read_eq_of_nonempty {T : Type} {b : FifoRingBuffer T} {v : T}
    {rest : List T} (h : ringInv b (v :: rest)) :
    b.read = (some v, (b.read).2) ∧ ringInv (b.read).2 rest ∧
      (b.read).2.capacity = b.capacity := by
  obtain ⟨h1, h2, h3⟩ := read_of_nonempty h
  refine ⟨?_, h2, h3⟩
  rw [← h1]

end FifoRingBuffer

namespace Channel

/-- `tryRead` on an unbuffered channel with no blocked write. -/
theorem tryRead_unbuffered_empty {ch : Channel T} (h0 : ch.capacity = 0)
    (hbw : ch.blockedWrites = []) : ch.tryRead = (none, ch) := by
  simp [tryRead, h0, hbw]

/-- `tryRead` on an unbuffered channel pops the head blocked write and
returns its value (resolving that write). -/
theorem tryRead_unbuffered_cons {ch : Channel T} {w : T} {ws : List T}
    (h0 : ch.capacity = 0) (hbw : ch.blockedWrites = w :: ws) :
    ch.tryRead = (some w, { ch with blockedWrites := ws }) := by
  simp [tryRead, h0, hbw]

/-- `tryRead` on a buffered channel with an empty buffer. -/
theorem tryRead_buffered_empty {ch : Channel T} (h0 : ch.capacity ≠ 0)
    (hring : FifoRingBuffer.ringInv ch.buffer []) : ch.tryRead = (none, ch) := by
  have hr := FifoRingBuffer.read_of_empty hring
  simp [tryRead, h0, hr]

/-- `tryRead` on a buffered channel with a value and no blocked write:
pops the buffer head and wakes at most one writable wait. -/
theorem tryRead_buffered_nobw {ch : Channel T} {v : T} {rest : List T}
    (h0 : ch.capacity ≠ 0) (hring : FifoRingBuffer.ringInv ch.buffer (v :: rest))
    (hbw : ch.blockedWrites = []) :
    ch.tryRead = (some v,
      { ch with
          buffer := (ch.buffer.read).2
          writableWaits := ch.writableWaits - 1 }) ∧
    FifoRingBuffer.ringInv (ch.buffer.read).2 rest ∧
    (ch.buffer.read).2.capacity = ch.buffer.capacity := by
  obtain ⟨h1, hinv, hcap⟩ := FifoRingBuffer.read_of_nonempty hring
  match hread : ch.buffer.read with
  | (r1, b2) =>
    rw [hread] at h1 hinv hcap
    subst h1
    refine ⟨?_, hinv, hcap⟩
    simp [tryRead, h0, hread, hbw]

/-- `tryRead` on a buffered channel with a value and a pending blocked write:
pops the buffer head, moves the head blocked write's value into the freed
slot (resolving that write), and leaves the writable waits alone. -/
theorem tryRead_buffered_bw {ch : Channel T} {v : T} {rest : List T} {w : T}
    {ws : List T} (h0 : ch.capacity ≠ 0)
    (hring : FifoRingBuffer.ringInv ch.buffer (v :: rest))
    (hcapEq : ch.buffer.capacity = ch.capacity)
    (hbw : ch.blockedWrites = w :: ws) :
    ch.tryRead = (some v,
      { ch with
          buffer := ((ch.buffer.read).2.write w).2
          blockedWrites := ws }) ∧
    FifoRingBuffer.ringInv ((ch.buffer.read).2.write w).2 (rest ++ [w]) ∧
    ((ch.buffer.read).2.write w).2.capacity = ch.buffer.capacity := by
  obtain ⟨h1, hinv, hcap⟩ := FifoRingBuffer.read_of_nonempty hring
  have hlen : (v :: rest).length ≤ ch.buffer.capacity := hring.2.1
  match hread : ch.buffer.read with
  | (r1, b2) =>
    rw [hread] at h1 hinv hcap
    subst h1
    have hroom : rest.length < b2.capacity := by
      rw [hcap]
      simp at hlen
      omega
    obtain ⟨hw1, hwinv, hwcap⟩ := FifoRingBuffer.write_of_room w hinv hroom
    match hwrite : b2.write w with
    | (w1, b3) =>
      rw [hwrite] at hw1 hwinv hwcap
      subst hw1
      refine ⟨?_, hwinv, by rw [hwcap, hcap]⟩
      simp [tryRead, h0, hread, hbw, hwrite]

/-- `Channel.new` satisfies the reachable-state invariant. -/
theorem chanInv_new (T : Type) (cap : Nat) : ChanInv (new T cap) :=
  ⟨rfl, [], FifoRingBuffer.ringInv_new T cap,
    fun h => absurd h (by simp [new]),
    fun h => rfl,
    fun h => by simp [new] at h,
    fun h => absurd rfl h⟩

/-- `write` preserves the reachable-state invariant. -/
theorem chanInv_write {ch : Channel T} (h : ChanInv ch) (value : Option T) :
    ChanInv (ch.write value).2 := by
  obtain ⟨hcapEq, q, hring, hB, hC, hE, hF⟩ := h
  match value with
  | none => exact ⟨hcapEq, q, hring, hB, hC, hE, hF⟩
  | some v =>
    match hcl : ch.closed with
    | true =>
      have hst : (ch.write (some v)).2 = ch := by simp [write, hcl]
      rw [hst]
      exact ⟨hcapEq, q, hring, hB, hC, hE, hF⟩
    | false =>
      by_cases hbr : 0 < ch.blockedReads
      · have hst : (ch.write (some v)).2
            = { ch with blockedReads := ch.blockedReads - 1 } := by
          simp [write, hcl, hbr]
        rw [hst]
        obtain ⟨hq, hbw⟩ := hB hbr
        exact ⟨hcapEq, q, hring,
          fun _ => ⟨hq, hbw⟩, hC, fun h2 => by simp [hcl] at h2, hF⟩
      · match hwr : ch.buffer.write v with
        | (flag, b2) =>
          by_cases hroom : q.length < ch.buffer.capacity
          · obtain ⟨hw1, hwinv, hwcap⟩ := FifoRingBuffer.write_of_room v hring hroom
            rw [hwr] at hw1 hwinv hwcap
            simp only at hw1
            subst hw1
            have hst : (ch.write (some v)).2
                = { ch with readableWaits := ch.readableWaits - 1, buffer := b2 } := by
              simp [write, hcl, hbr, hwr]
            rw [hst]
            have hbw : ch.blockedWrites = [] := by
              by_contra hne
              have := hF hne
              rw [hcapEq] at hroom
              omega
            refine ⟨by simpa [hcapEq] using hwcap, q ++ [v], hwinv, ?_, ?_, ?_, ?_⟩
            · intro h2
              simp only at h2
              exact absurd h2 hbr
            · intro _
              exact hcl
            · intro h2
              simp [hcl] at h2
            · intro h2
              exact absurd hbw h2
          · have hfull := FifoRingBuffer.write_of_full v hring hroom
            rw [hwr] at hfull
            have hflag : flag = false := by
              have := congrArg Prod.fst hfull
              simpa using this
            have hb2 : b2 = ch.buffer := by
              have := congrArg Prod.snd hfull
              simpa using this
            subst hflag
            have hst : (ch.write (some v)).2
                = { ch with
                      readableWaits := ch.readableWaits - 1
                      blockedWrites := ch.blockedWrites ++ [v] } := by
              simp [write, hcl, hbr, hwr]
            rw [hst]
            have hfullLen : q.length = ch.capacity := by
              have := hring.2.1
              rw [hcapEq] at hroom
              omega
            refine ⟨hcapEq, q, hring, ?_, ?_, ?_, ?_⟩
            · intro h2
              simp only at h2
              exact absurd h2 hbr
            · intro _
              exact hcl
            · intro h2
              simp [hcl] at h2
            · intro _
              exact hfullLen

/-- `tryRead` preserves the reachable-state invariant. -/
theorem chanInv_tryRead {ch : Channel T} (h : ChanInv ch) :
    ChanInv (ch.tryRead).2 := by
  obtain ⟨hcapEq, q, hring, hB, hC, hE, hF⟩ := h
  by_cases h0 : ch.capacity = 0
  · match hbw : ch.blockedWrites with
    | [] =>
      rw [tryRead_unbuffered_empty h0 hbw]
      exact ⟨hcapEq, q, hring, hB, hC, hE, hF⟩
    | w :: ws =>
      rw [tryRead_unbuffered_cons h0 hbw]
      refine ⟨hcapEq, q, hring, ?_, hC, ?_, ?_⟩
      · intro h2
        simp only at h2
        obtain ⟨hq, hbw2⟩ := hB h2
        rw [hbw] at hbw2
        exact absurd hbw2 (by simp)
      · intro h2
        simp only at h2
        obtain ⟨hbw2, -⟩ := hE h2
        rw [hbw] at hbw2
        exact absurd hbw2 (by simp)
      · intro _
        exact hF (by rw [hbw]; simp)
  · match hq : q with
    | [] =>
      rw [tryRead_buffered_empty h0 hring]
      exact ⟨hcapEq, [], hring, fun h2 => ⟨rfl, (hB h2).2⟩, hC, hE, hF⟩
    | v :: rest =>
      match hbw : ch.blockedWrites with
      | [] =>
        obtain ⟨heq, hinv2, hcap2⟩ := tryRead_buffered_nobw h0 hring hbw
        rw [heq]
        refine ⟨by simpa [hcapEq] using hcap2, rest, hinv2, ?_, hC, ?_, ?_⟩
        · intro h2
          simp only at h2
          exact absurd (hB h2).1 (by simp)
        · intro h2
          simp only at h2
          obtain ⟨hbw2, hbr2, hrw2, hww2⟩ := hE h2
          exact ⟨hbw2, hbr2, hrw2, by simp [hww2]⟩
        · intro h2
          simp only at h2
          exact absurd hbw h2
      | w :: ws =>
        obtain ⟨heq, hinv2, hcap2⟩ := tryRead_buffered_bw h0 hring hcapEq hbw
        rw [heq]
        refine ⟨by simpa [hcapEq] using hcap2, rest ++ [w], hinv2, ?_, hC, ?_, ?_⟩
        · intro h2
          simp only at h2
          obtain ⟨-, hbw2⟩ := hB h2
          rw [hbw] at hbw2
          exact absurd hbw2 (by simp)
        · intro h2
          simp only at h2
          obtain ⟨hbw2, -⟩ := hE h2
          rw [hbw] at hbw2
          exact absurd hbw2 (by simp)
        · intro _
          have hlen := hF (by rw [hbw]; simp)
          simp only [List.length_append, List.length_cons, List.length_nil] at hlen ⊢
          omega

/-- Under the invariant, a `tryRead` that returns `undefined` finds the buffer
empty and no blocked writes. -/
theorem tryRead_none_empty {ch : Channel T} (h : ChanInv ch)
    (hnone : (ch.tryRead).1 = none) :
    FifoRingBuffer.ringInv ch.buffer [] ∧ ch.blockedWrites = [] := by
  obtain ⟨hcapEq, q, hring, hB, hC, hE, hF⟩ := h
  by_cases h0 : ch.capacity = 0
  · have hq : q = [] := by
      have := hring.2.1
      rw [hcapEq, h0] at this
      exact List.length_eq_zero.mp (by omega)
    subst hq
    refine ⟨hring, ?_⟩
    match hbw : ch.blockedWrites with
    | [] => rfl
    | w :: ws =>
      rw [tryRead_unbuffered_cons h0 hbw] at hnone
      simp at hnone
  · match hq : q with
    | [] =>
      refine ⟨hring, ?_⟩
      match hbw : ch.blockedWrites with
      | [] => rfl
      | w :: ws =>
        have := hF (by rw [hbw]; simp)
        simp at this
        exact absurd this.symm h0
    | v :: rest =>
      match hbw : ch.blockedWrites with
      | [] =>
        obtain ⟨heq, -, -⟩ := tryRead_buffered_nobw h0 hring hbw
        rw [heq] at hnone
        simp at hnone
      | w :: ws =>
        obtain ⟨heq, -, -⟩ := tryRead_buffered_bw h0 hring hcapEq hbw
        rw [heq] at hnone
        simp at hnone

/-- A `tryRead` that returns `undefined` does not change the channel. -/
theorem tryRead_none_state {ch : Channel T} (h : (ch.tryRead).1 = none) :
    (ch.tryRead).2 = ch := by
  unfold tryRead at *
  by_cases h0 : ch.capacity = 0
  · simp only [if_pos h0] at h ⊢
    match hbw : ch.blockedWrites with
    | [] => simp
    | w :: ws => simp [hbw] at h
  · simp only [if_neg h0] at h ⊢
    match hr : ch.buffer.read with
    | (none, b2) => simp [hr]
    | (some v, b2) =>
      rw [hr] at h
      match hbw : ch.blockedWrites with
      | [] => simp [hbw] at h
      | w :: ws => simp [hbw] at h

/-- `read` preserves the reachable-state invariant. -/
theorem chanInv_read {ch : Channel T} (h : ChanInv ch) : ChanInv (ch.read).2 := by
  match hres : ch.tryRead with
  | (some v, ch2) =>
    have hst : (ch.read).2 = ch2 := by simp [read, hres]
    rw [hst]
    have h2 := chanInv_tryRead h
    rw [hres] at h2
    exact h2
  | (none, ch2) =>
    have hch2 : ch2 = ch := by
      have h2 := @tryRead_none_state T ch (by rw [hres])
      rw [hres] at h2
      exact h2
    rw [hch2] at hres
    match hcl : ch.closed with
    | true =>
      have hst : (ch.read).2 = ch := by simp [read, hres, hcl]
      rw [hst]
      exact h
    | false =>
      have hst : (ch.read).2 = { ch with
          writableWaits := ch.writableWaits - 1
          blockedReads := ch.blockedReads + 1 } := by
        simp [read, hres, hcl]
      rw [hst]
      obtain ⟨hring0, hbw0⟩ := tryRead_none_empty h (by rw [hres])
      obtain ⟨hcapEq, q, hring, hB, hC, hE, hF⟩ := h
      refine ⟨hcapEq, [], hring0, fun _ => ⟨rfl, hbw0⟩, hC, ?_, ?_⟩
      · intro h2
        simp [hcl] at h2
      · intro h2
        exact absurd hbw0 h2

/-- `waitUntilReadable` preserves the reachable-state invariant. -/
theorem chanInv_waitUntilReadable {ch : Channel T} (h : ChanInv ch) :
    ChanInv (ch.waitUntilReadable).2 := by
  obtain ⟨hcapEq, q, hring, hB, hC, hE, hF⟩ := h
  match hcl : ch.closed with
  | true =>
    have hst : (ch.waitUntilReadable).2 = ch := by simp [waitUntilReadable, hcl]
    rw [hst]
    exact ⟨hcapEq, q, hring, hB, hC, hE, hF⟩
  | false =>
    by_cases hcond : 0 < ch.buffer.length ∨ 0 < ch.blockedWrites.length
    · have hst : (ch.waitUntilReadable).2 = ch := by
        simp only [waitUntilReadable, hcl, if_pos hcond]
        simp
      rw [hst]
      exact ⟨hcapEq, q, hring, hB, hC, hE, hF⟩
    · have hst : (ch.waitUntilReadable).2
          = { ch with readableWaits := ch.readableWaits + 1 } := by
        simp only [waitUntilReadable, hcl, if_neg hcond]
        simp
      rw [hst]
      refine ⟨hcapEq, q, hring, hB, fun _ => hcl, ?_, hF⟩
      intro h2
      simp [hcl] at h2

/-- `waitUntilWritable` preserves the reachable-state invariant. -/
theorem chanInv_waitUntilWritable {ch : Channel T} (h : ChanInv ch) :
    ChanInv (ch.waitUntilWritable).2 := by
  obtain ⟨hcapEq, q, hring, hB, hC, hE, hF⟩ := h
  match hcl : ch.closed with
  | true =>
    have hst : (ch.waitUntilWritable).2 = ch := by simp [waitUntilWritable, hcl]
    rw [hst]
    exact ⟨hcapEq, q, hring, hB, hC, hE, hF⟩
  | false =>
    by_cases hcond : ch.buffer.length < (ch.capacity : Int) ∨ 0 < ch.blockedReads
    · have hst : (ch.waitUntilWritable).2 = ch := by
        simp only [waitUntilWritable, hcl, if_pos hcond]
        simp
      rw [hst]
      exact ⟨hcapEq, q, hring, hB, hC, hE, hF⟩
    · have hst : (ch.waitUntilWritable).2
          = { ch with writableWaits := ch.writableWaits + 1 } := by
        simp only [waitUntilWritable, hcl, if_neg hcond]
        simp
      rw [hst]
      refine ⟨hcapEq, q, hring, hB, hC, ?_, hF⟩
      intro h2
      simp [hcl] at h2

/-- `close` preserves the reachable-state invariant. -/
theorem chanInv_close {ch : Channel T} (h : ChanInv ch) : ChanInv (ch.close).2 := by
  obtain ⟨hcapEq, q, hring, hB, hC, hE, hF⟩ := h
  match hcl : ch.closed with
  | true =>
    have hst : (ch.close).2 = ch := by simp [close, hcl]
    rw [hst]
    exact ⟨hcapEq, q, hring, hB, hC, hE, hF⟩
  | false =>
    have hst : (ch.close).2 = { ch with
        closed := true
        blockedReads := 0
        blockedWrites := []
        readableWaits := 0
        writableWaits := 0 } := by
      simp [close, hcl]
    rw [hst]
    exact ⟨hcapEq, q, hring,
      fun h2 => absurd h2 (lt_irrefl 0),
      fun h2 => absurd h2 (lt_irrefl 0),
      fun _ => ⟨rfl, rfl, rfl, rfl⟩,
      fun h2 => absurd rfl h2⟩

/-- Every public operation preserves the reachable-state invariant. -/
theorem chanInv_step {ch : Channel T} (h : ChanInv ch) (op : ChanOp T) :
    ChanInv (ch.step op) := by
  cases op with
  | write v => exact chanInv_write h v
  | read => exact chanInv_read h
  | tryRead => exact chanInv_tryRead h
  | waitUntilReadable => exact chanInv_waitUntilReadable h
  | waitUntilWritable => exact chanInv_waitUntilWritable h
  | close => exact chanInv_close h

theorem chanInv_foldl {ch : Channel T} (h : ChanInv ch) (ops : List (ChanOp T)) :
    ChanInv (ops.foldl step ch) := by
  induction ops generalizing ch with
  | nil => exact h
  | cons op rest ih => exact ih (chanInv_step h op)

/-- Every reachable state of a channel satisfies the invariant. -/
theorem chanInv_run (T : Type) (cap : Nat) (ops : List (ChanOp T)) :
    ChanInv (run T cap ops) :=
  chanInv_foldl (chanInv_new T cap) ops

/-- No operation changes the `capacity` field. -/
theorem write_capacity_frame (ch : Channel T) (value : Option T) :
    (ch.write value).2.capacity = ch.capacity := by
  match value with
  | none => rfl
  | some v =>
    match hcl : ch.closed with
    | true => simp [write, hcl]
    | false =>
      by_cases hbr : 0 < ch.blockedReads
      · simp [write, hcl, hbr]
      · match hwr : ch.buffer.write v with
        | (true, b2) => simp [write, hcl, hbr, hwr]
        | (false, b2) => simp [write, hcl, hbr, hwr]

theorem tryRead_capacity_frame (ch : Channel T) :
    (ch.tryRead).2.capacity = ch.capacity := by
  unfold tryRead
  split
  · split <;> rfl
  · split
    · rfl
    · split <;> rfl

theorem read_capacity_frame (ch : Channel T) :
    (ch.read).2.capacity = ch.capacity := by
  have htr := tryRead_capacity_frame ch
  match hres : ch.tryRead with
  | (some v, ch2) =>
    rw [hres] at htr
    have hst : (ch.read).2 = ch2 := by simp [read, hres]
    rw [hst]
    exact htr
  | (none, ch2) =>
    rw [hres] at htr
    match hcl : ch.closed with
    | true =>
      have hst : (ch.read).2 = ch2 := by simp [read, hres, hcl]
      rw [hst]
      exact htr
    | false =>
      have hst : (ch.read).2 = { ch2 with
          writableWaits := ch2.writableWaits - 1
          blockedReads := ch2.blockedReads + 1 } := by
        simp [read, hres, hcl]
      rw [hst]
      exact htr

theorem waitUntilReadable_capacity_frame (ch : Channel T) :
    (ch.waitUntilReadable).2.capacity = ch.capacity := by
  unfold waitUntilReadable
  split
  · rfl
  · split <;> rfl

theorem waitUntilWritable_capacity_frame (ch : Channel T) :
    (ch.waitUntilWritable).2.capacity = ch.capacity := by
  unfold waitUntilWritable
  split
  · rfl
  · split <;> rfl

theorem close_capacity_frame (ch : Channel T) :
    (ch.close).2.capacity = ch.capacity := by
  unfold close
  split <;> rfl

theorem step_capacity_frame (ch : Channel T) (op : ChanOp T) :
    (ch.step op).capacity = ch.capacity := by
  cases op with
  | write v => exact write_capacity_frame ch v
  | read => exact read_capacity_frame ch
  | tryRead => exact tryRead_capacity_frame ch
  | waitUntilReadable => exact waitUntilReadable_capacity_frame ch
  | waitUntilWritable => exact waitUntilWritable_capacity_frame ch
  | close => exact close_capacity_frame ch

theorem run_capacity (T : Type) (cap : Nat) (ops : List (ChanOp T)) :
    (run T cap ops).capacity = cap := by
  suffices h : ∀ (ch : Channel T) (ops : List (ChanOp T)),
      (ops.foldl step ch).capacity = ch.capacity by
    exact h (new T cap) ops
  intro ch ops2
  induction ops2 generalizing ch with
  | nil => rfl
  | cons op rest ih => exact (ih (ch.step op)).trans (step_capacity_frame ch op)

end Channel

/-- `filterMap` over `range` of functions that are `some` at every index of a
list reproduces the list. -/
theorem filterMap_range_eq {A : Type} (q : List A) (f : Nat → Option A)
    (h : ∀ i, i < q.length → f i = q[i]?) :
    (List.range q.length).filterMap f = q := by
  induction q generalizing f with
  | nil => simp
  | cons v rest ih =>
    have h0 : f 0 = some v := by simpa using h 0 (by simp)
    have hrest : ∀ i, i < rest.length → f (i + 1) = rest[i]? := by
      intro i hi
      have := h (i + 1) (by simp; omega)
      simpa using this
    rw [List.length_cons, List.range_succ_eq_map, List.filterMap_cons, h0,
      List.filterMap_map]
    exact congrArg (v :: ·) (ih (f ∘ Nat.succ) fun i hi => hrest i hi)

namespace FifoRingBuffer

/-- On states satisfying `ringInv`, `toList` recovers the represented queue. -/
theorem toList_of_ringInv {T : Type} {b : FifoRingBuffer T} {q : List T}
    (h : ringInv b q) : b.toList = q := by
  obtain ⟨hlen, hle, hrp, hwp⟩ := h
  match hr : b.readPointer with
  | none =>
    rw [hr] at hrp
    simp [toList, hr, hrp]
  | some r =>
    rw [hr] at hrp
    obtain ⟨-, hrlt, hslots⟩ := hrp
    have hlen2 : b.length.toNat = q.length := by
      rw [hlen]
      simp
    simp only [toList, hr, hlen2]
    exact filterMap_range_eq q _ hslots

/-- Every state of a ring buffer reachable by `write` / `read` operations
satisfies the refinement invariant for some queue, and keeps its capacity. -/
theorem ringInv_runRing (T : Type) (cap : Nat) (ops : List (RingOp T)) :
    ∃ q, ringInv (runRing T cap ops) q ∧ (runRing T cap ops).capacity = cap := by
  suffices hstep : ∀ (ops2 : List (RingOp T)) (b : FifoRingBuffer T) (q : List T),
      ringInv b q → ∃ q2, ringInv (ops2.foldl (fun b op =>
        match op with
        | RingOp.write v => (b.write v).2
        | RingOp.read => (b.read).2) b) q2 ∧
      (ops2.foldl (fun b op =>
        match op with
        | RingOp.write v => (b.write v).2
        | RingOp.read => (b.read).2) b).capacity = b.capacity by
    obtain ⟨q2, h1, h2⟩ := hstep ops (new T cap) [] (ringInv_new T cap)
    exact ⟨q2, h1, h2⟩
  intro ops2
  induction ops2 with
  | nil => exact fun b q h => ⟨q, h, rfl⟩
  | cons op rest ih =>
    intro b q h
    simp only [List.foldl_cons]
    match op with
    | RingOp.write v =>
      by_cases hroom : q.length < b.capacity
      · obtain ⟨-, hinv, hcap⟩ := write_of_room v h hroom
        obtain ⟨q2, h1, h2⟩ := ih (b.write v).2 (q ++ [v]) hinv
        exact ⟨q2, h1, h2.trans hcap⟩
      · have hfull := write_of_full v h hroom
        have hunch : ((b.write v).2) = b := by rw [hfull]
        obtain ⟨q2, h1, h2⟩ := ih (b.write v).2 q (by rw [hunch]; exact h)
        exact ⟨q2, h1, h2.trans (congrArg capacity hunch)⟩
    | RingOp.read =>
      match hq : q with
      | [] =>
        have hempty := read_of_empty h
        have hunch : (b.read).2 = b := congrArg Prod.snd hempty
        obtain ⟨q2, h1, h2⟩ := ih (b.read).2 [] (by rw [hunch]; exact h)
        exact ⟨q2, h1, h2.trans (congrArg capacity hunch)⟩
      | v :: rest2 =>
        obtain ⟨-, hinv, hcap⟩ := read_of_nonempty h
        obtain ⟨q2, h1, h2⟩ := ih (b.read).2 rest2 hinv
        exact ⟨q2, h1, h2.trans hcap⟩

end FifoRingBuffer

namespace Channel

/-- A block of writes from one task into a channel with enough free buffer
space: every write completes with the `buffered` outcome and the buffer ends
holding the old queue followed by the written values. -/
theorem writeAll_spec {T : Type} (vs : List T) :
    ∀ (ch : Channel T) (q : List T),
    FifoRingBuffer.ringInv ch.buffer q →
    ch.buffer.capacity = ch.capacity →
    ch.closed = false →
    ch.blockedReads = 0 →
    ch.readableWaits = 0 →
    q.length + vs.length ≤ ch.capacity →
    (writeAll ch vs).1 = vs.map (fun _ => WriteOutcome.buffered) ∧
    FifoRingBuffer.ringInv (writeAll ch vs).2.buffer (q ++ vs) ∧
    (writeAll ch vs).2.buffer.capacity = ch.capacity ∧
    (writeAll ch vs).2.capacity = ch.capacity ∧
    (writeAll ch vs).2.closed = false ∧
    (writeAll ch vs).2.blockedReads = 0 ∧
    (writeAll ch vs).2.readableWaits = 0 ∧
    (writeAll ch vs).2.blockedWrites = ch.blockedWrites := by
  induction vs with
  | nil =>
    intro ch q hring hcapEq hcl hbr hrw hbound
    rw [List.append_nil]
    exact ⟨rfl, hring, hcapEq, rfl, hcl, hbr, hrw, rfl⟩
  | cons v rest ih =>
    intro ch q hring hcapEq hcl hbr hrw hbound
    have hroom : q.length < ch.buffer.capacity := by
      rw [hcapEq]
      simp only [List.length_cons] at hbound
      omega
    obtain ⟨hflag, hinv, hcap⟩ := FifoRingBuffer.write_of_room v hring hroom
    match hwr : ch.buffer.write v with
    | (false, b2) =>
      rw [hwr] at hflag
      simp at hflag
    | (true, b2) =>
      rw [hwr] at hflag hinv hcap
      have hbr0 : ¬ 0 < ch.blockedReads := by omega
      have hst : ch.write (some v) = (WriteOutcome.buffered,
          { ch with readableWaits := ch.readableWaits - 1, buffer := b2 }) := by
        simp [write, hcl, hbr0, hwr]
      have hnext :
          ({ ch with readableWaits := ch.readableWaits - 1, buffer := b2 } :
            Channel T).readableWaits = 0 := by
        simp [hrw]
      have hbound2 : (q ++ [v]).length + rest.length
          ≤ ({ ch with readableWaits := ch.readableWaits - 1, buffer := b2 } :
              Channel T).capacity := by
        simp only [List.length_append, List.length_cons, List.length_nil] at hbound ⊢
        omega
      obtain ⟨ih1, ih2, ih3, ih4, ih5, ih6, ih7, ih8⟩ :=
        ih { ch with readableWaits := ch.readableWaits - 1, buffer := b2 }
          (q ++ [v]) hinv (by simpa using hcap.trans hcapEq) hcl hbr hnext hbound2
      simp only [writeAll, hst]
      refine ⟨?_, ?_, ih3, ih4, ih5, ih6, ih7, ih8⟩
      · simp [ih1]
      · rw [List.append_assoc] at ih2
        simpa using ih2

/-- Draining a channel that holds queue `q` in its buffer and has no blocked
writes: `q.length` reads return exactly the values of `q`, in order. -/
theorem readAll_spec {T : Type} (q : List T) :
    ∀ (ch : Channel T),
    FifoRingBuffer.ringInv ch.buffer q →
    ch.buffer.capacity = ch.capacity →
    ch.blockedWrites = [] →
    (readAll ch q.length).1 = q.map ReadOutcome.value := by
  induction q with
  | nil =>
    intro ch hring hcapEq hbw
    rfl
  | cons v rest ih =>
    intro ch hring hcapEq hbw
    have h0 : ch.capacity ≠ 0 := by
      have := hring.2.1
      rw [hcapEq] at this
      simp at this
      omega
    obtain ⟨heq, hinv2, hcap2⟩ := tryRead_buffered_nobw h0 hring hbw
    have hread : ch.read = (ReadOutcome.value v,
        { ch with
            buffer := (ch.buffer.read).2
            writableWaits := ch.writableWaits - 1 }) := by
      simp [read, heq]
    have ihres := ih
      { ch with
          buffer := (ch.buffer.read).2
          writableWaits := ch.writableWaits - 1 }
      hinv2 (by simpa using hcap2.trans hcapEq) hbw
    simp only [List.length_cons, readAll, hread, List.map_cons]
    exact congrArg (ReadOutcome.value v :: ·) ihres

end Channel

namespace Channel

/-- A `waitUntilReadable` call that registers a waiter grows the readable
waiter set by exactly one. -/
theorem waitUntilReadable_registered_count (ch : Channel T)
    (h : (ch.waitUntilReadable).1 = WaitOutcome.registered) :
    (ch.waitUntilReadable).2.readableWaits = ch.readableWaits + 1 := by
  unfold waitUntilReadable at *
  by_cases hcl : ch.closed = true
  · simp [hcl] at h
  · by_cases hcond : 0 < ch.buffer.length ∨ 0 < ch.blockedWrites.length
    · simp [hcl, hcond] at h
    · simp [hcl, hcond]

end Channel

/-- Claim C1: in every reachable state of a channel of any capacity
(reachable from a fresh channel by the public operations `write`, `read`,
`tryRead`, `waitUntilReadable`, `waitUntilWritable`, `close`), a non-empty
set of blocked reads implies the buffer is empty and there are no blocked
writes. -/
theorem claim1_blockedReads_exclusion (T : Type) (cap : Nat)
    (ops : List (ChanOp T))
    (h : 0 < (Channel.run T cap ops).blockedReads) :
    (Channel.run T cap ops).buffer.length = 0 ∧
    (Channel.run T cap ops).blockedWrites = [] := by
  obtain ⟨hcapEq, q, hring, hB, hC, hE, hF⟩ := Channel.chanInv_run T cap ops
  obtain ⟨hq, hbw⟩ := hB h
  subst hq
  exact ⟨by simpa using hring.1, hbw⟩

theorem claim1_witness :
    (Channel.run Nat 0 [ChanOp.read]).buffer.length = 0 ∧
    (Channel.run Nat 0 [ChanOp.read]).blockedWrites = [] :=
  claim1_blockedReads_exclusion Nat 0 [ChanOp.read] (by decide)

/-- Counterexample to claim C2 as stated: after two `waitUntilReadable`
registrations and one buffered `write` on an open channel of capacity 1,
one readable-waiter is still registered while the buffer holds a value (the
channel is readable), so `readableWaits` non-empty does not imply the channel
is unreadable. -/
theorem claim2_counterexample :
    0 < (Channel.run Nat 1 [ChanOp.waitUntilReadable, ChanOp.waitUntilReadable,
      ChanOp.write (some 7)]).readableWaits ∧
    0 < (Channel.run Nat 1 [ChanOp.waitUntilReadable, ChanOp.waitUntilReadable,
      ChanOp.write (some 7)]).buffer.length ∧
    (Channel.run Nat 1 [ChanOp.waitUntilReadable, ChanOp.waitUntilReadable,
      ChanOp.write (some 7)]).closed = false :=
  ⟨by decide, by decide, by decide⟩

/-- Claim C2 (amended): in every reachable state, a non-empty readable-waits
set implies the channel is not closed; and `waitUntilReadable` registers a
waiter (adding exactly one) precisely when the channel is currently not
readable (not closed, empty buffer, no blocked writes). After a `write` that
wakes one of several registered waiters, the remaining waiters can coexist
with a readable channel. -/
theorem claim2_readableWaits_amended (T : Type) (cap : Nat)
    (ops : List (ChanOp T)) :
    (0 < (Channel.run T cap ops).readableWaits →
      (Channel.run T cap ops).closed = false) ∧
    (((Channel.run T cap ops).waitUntilReadable).1 = WaitOutcome.registered ↔
      (Channel.run T cap ops).closed = false ∧
      ¬ 0 < (Channel.run T cap ops).buffer.length ∧
      (Channel.run T cap ops).blockedWrites = []) ∧
    (((Channel.run T cap ops).waitUntilReadable).1 = WaitOutcome.registered →
      ((Channel.run T cap ops).waitUntilReadable).2.readableWaits
        = (Channel.run T cap ops).readableWaits + 1) := by
  obtain ⟨hcapEq, q, hring, hB, hC, hE, hF⟩ := Channel.chanInv_run T cap ops
  refine ⟨hC, ?_, Channel.waitUntilReadable_registered_count _⟩
  match hcl : (Channel.run T cap ops).closed with
  | true =>
    have himm : ((Channel.run T cap ops).waitUntilReadable).1
        = WaitOutcome.immediate := by
      simp [Channel.waitUntilReadable, hcl]
    rw [himm]
    simp
  | false =>
    by_cases hcond : 0 < (Channel.run T cap ops).buffer.length ∨
        0 < (Channel.run T cap ops).blockedWrites.length
    · have himm : ((Channel.run T cap ops).waitUntilReadable).1
          = WaitOutcome.immediate := by
        simp only [Channel.waitUntilReadable, hcl]
        simp [hcond]
      rw [himm]
      constructor
      · intro hcontra
        exact absurd hcontra (by simp)
      · rintro ⟨-, hnl, hbw⟩
        rcases hcond with hc | hc
        · exact absurd hc hnl
        · rw [hbw] at hc
          simp at hc
    · have hreg : ((Channel.run T cap ops).waitUntilReadable).1
          = WaitOutcome.registered := by
        simp only [Channel.waitUntilReadable, hcl]
        simp [hcond]
      rw [hreg]
      push_neg at hcond
      constructor
      · intro hro
        obtain ⟨hc1, hc2⟩ := hcond
        refine ⟨rfl, by omega, ?_⟩
        have hlen0 : (Channel.run T cap ops).blockedWrites.length = 0 := by omega
        exact List.length_eq_zero.mp hlen0
      · intro hro
        rfl

/-- Claim C3: on every reachable buffered channel (capacity > 0), `tryRead`
returns `undefined` iff the buffer is empty; otherwise it returns the buffer
head, and: with a pending blocked write it dequeues the head blocked write,
appends that write's value to the freed buffer slot and resolves it; with no
blocked write it wakes at most one writable-waiter. -/
theorem claim3_tryRead_buffered (T : Type) (cap : Nat) (ops : List (ChanOp T))
    (s : Channel T) (hs : s = Channel.run T cap ops) (hcap : 0 < cap) :
    ((s.tryRead).1 = none ↔ s.buffer.toList = []) ∧
    (s.buffer.toList = [] → (s.tryRead).2 = s) ∧
    (∀ v rest, s.buffer.toList = v :: rest →
      (s.tryRead).1 = some v ∧
      (s.blockedWrites = [] →
        (s.tryRead).2.blockedWrites = [] ∧
        (s.tryRead).2.buffer.toList = rest ∧
        (0 < s.writableWaits →
          (s.tryRead).2.writableWaits = s.writableWaits - 1) ∧
        (s.writableWaits = 0 → (s.tryRead).2.writableWaits = 0)) ∧
      (∀ w ws, s.blockedWrites = w :: ws →
        (s.tryRead).2.blockedWrites = ws ∧
        (s.tryRead).2.buffer.toList = rest ++ [w] ∧
        (s.tryRead).2.writableWaits = s.writableWaits)) := by
  subst hs
  have hinv := Channel.chanInv_run T cap ops
  obtain ⟨hcapEq, q, hring, hB, hC, hE, hF⟩ := Channel.chanInv_run T cap ops
  have htl : (Channel.run T cap ops).buffer.toList = q :=
    FifoRingBuffer.toList_of_ringInv hring
  have h0 : (Channel.run T cap ops).capacity ≠ 0 := by
    rw [Channel.run_capacity]
    omega
  refine ⟨⟨?_, ?_⟩, ?_, ?_⟩
  · intro hnone
    obtain ⟨hring0, -⟩ := Channel.tryRead_none_empty hinv hnone
    exact FifoRingBuffer.toList_of_ringInv hring0
  · intro hempty
    rw [htl] at hempty
    rw [Channel.tryRead_buffered_empty h0 (hempty ▸ hring)]
  · intro hempty
    rw [htl] at hempty
    rw [Channel.tryRead_buffered_empty h0 (hempty ▸ hring)]
  · intro v rest hcons
    rw [htl] at hcons
    subst hcons
    match hbw : (Channel.run T cap ops).blockedWrites with
    | [] =>
      obtain ⟨heq, hinv2, hcap2⟩ := Channel.tryRead_buffered_nobw h0 hring hbw
      refine ⟨by rw [heq], ?_, ?_⟩
      · intro hb
        rw [heq]
        refine ⟨hbw, FifoRingBuffer.toList_of_ringInv hinv2, ?_, ?_⟩
        · intro h2
          rfl
        · intro h2
          simp only
          omega
      · intro w ws hbw2
        simp at hbw2
    | w :: ws =>
      obtain ⟨heq, hinv2, hcap2⟩ :=
        Channel.tryRead_buffered_bw h0 hring hcapEq hbw
      refine ⟨by rw [heq], ?_, ?_⟩
      · intro hbw2
        simp at hbw2
      · intro w2 ws2 hbw2
        injection hbw2 with hwe hwse
        subst hwe
        subst hwse
        rw [heq]
        exact ⟨rfl, FifoRingBuffer.toList_of_ringInv hinv2, rfl⟩

theorem claim3_witness :
    (((Channel.run Nat 1 []).tryRead).1 = none ↔
      (Channel.run Nat 1 []).buffer.toList = []) ∧
    ((Channel.run Nat 1 []).buffer.toList = [] →
      ((Channel.run Nat 1 []).tryRead).2 = Channel.run Nat 1 []) ∧
    (∀ v rest, (Channel.run Nat 1 []).buffer.toList = v :: rest →
      (((Channel.run Nat 1 []).tryRead).1 = some v ∧
      ((Channel.run Nat 1 []).blockedWrites = [] →
        ((Channel.run Nat 1 []).tryRead).2.blockedWrites = [] ∧
        ((Channel.run Nat 1 []).tryRead).2.buffer.toList = rest ∧
        (0 < (Channel.run Nat 1 []).writableWaits →
          ((Channel.run Nat 1 []).tryRead).2.writableWaits
            = (Channel.run Nat 1 []).writableWaits - 1) ∧
        ((Channel.run Nat 1 []).writableWaits = 0 →
          ((Channel.run Nat 1 []).tryRead).2.writableWaits = 0)) ∧
      (∀ w ws, (Channel.run Nat 1 []).blockedWrites = w :: ws →
        ((Channel.run Nat 1 []).tryRead).2.blockedWrites = ws ∧
        ((Channel.run Nat 1 []).tryRead).2.buffer.toList = rest ++ [w] ∧
        ((Channel.run Nat 1 []).tryRead).2.writableWaits
          = (Channel.run Nat 1 []).writableWaits))) :=
  claim3_tryRead_buffered Nat 1 [] (Channel.run Nat 1 []) rfl (by decide)

/-- Claim C4: round-trip through a buffered channel: writing `vs` with
`vs.length ≤ capacity` into a fresh channel completes every write without
blocking (`buffered` outcome), and `vs.length` subsequent reads return
exactly `vs`, in order. -/
theorem claim4_roundtrip (T : Type) (cap : Nat) (vs : List T)
    (h : vs.length ≤ cap) :
    (writeAll (Channel.new T cap) vs).1
      = vs.map (fun _ => WriteOutcome.buffered) ∧
    (readAll (writeAll (Channel.new T cap) vs).2 vs.length).1
      = vs.map ReadOutcome.value := by
  obtain ⟨h1, hinv, hbcap, hcap2, hcl, hbr, hrw, hbw⟩ :=
    Channel.writeAll_spec vs (Channel.new T cap) []
      (FifoRingBuffer.ringInv_new T cap) rfl rfl rfl rfl (by simpa using h)
  refine ⟨h1, ?_⟩
  have hread := Channel.readAll_spec ([] ++ vs)
    (writeAll (Channel.new T cap) vs).2 hinv
    (hbcap.trans hcap2.symm) (hbw.trans rfl)
  exact hread

theorem claim4_witness :
    (writeAll (Channel.new Nat 2) [1, 2]).1
      = [1, 2].map (fun _ => WriteOutcome.buffered) ∧
    (readAll (writeAll (Channel.new Nat 2) [1, 2]).2 ([1, 2] : List Nat).length).1
      = [1, 2].map ReadOutcome.value :=
  claim4_roundtrip Nat 2 [1, 2] (by decide)

/-- Claim C5: `close()` on an open channel resolves every blocked read with
`undefined`, rejects every blocked write with `CannotWriteIntoClosedChannel`,
resolves all readable and writable waits, and leaves both waiter counts at
zero. -/
theorem claim5_close_drains (T : Type) (ch : Channel T) (h : ch.closed = false) :
    (ch.close).1.readsResolvedUndefined = ch.blockedReads ∧
    (ch.close).1.writesRejectedClosed = ch.blockedWrites ∧
    (ch.close).1.readableWaitsResolved = ch.readableWaits ∧
    (ch.close).1.writableWaitsResolved = ch.writableWaits ∧
    (ch.close).2.readableWaitsCount = 0 ∧
    (ch.close).2.writableWaitsCount = 0 ∧
    (ch.close).2.closed = true := by
  simp [Channel.close, h, Channel.readableWaitsCount, Channel.writableWaitsCount]

theorem claim5_witness :
    ((Channel.new Nat 0).close).1.readsResolvedUndefined
      = (Channel.new Nat 0).blockedReads ∧
    ((Channel.new Nat 0).close).1.writesRejectedClosed
      = (Channel.new Nat 0).blockedWrites ∧
    ((Channel.new Nat 0).close).1.readableWaitsResolved
      = (Channel.new Nat 0).readableWaits ∧
    ((Channel.new Nat 0).close).1.writableWaitsResolved
      = (Channel.new Nat 0).writableWaits ∧
    ((Channel.new Nat 0).close).2.readableWaitsCount = 0 ∧
    ((Channel.new Nat 0).close).2.writableWaitsCount = 0 ∧
    ((Channel.new Nat 0).close).2.closed = true :=
  claim5_close_drains Nat (Channel.new Nat 0) rfl

/-- Claim C6: steal-safety of the select dispatch. If the winner arm's
`tryRead` finds no value (another task consumed it) and the channel is not
closed, `select` does not resolve with that arm: the dispatch yields no
result, consumes nothing, and re-arms a fresh `waitUntilReadable` wait for
the arm (one more registered readable-waiter) to continue racing. -/
theorem claim6_steal_safety (T : Type) (cap : Nat) (ops : List (ChanOp T))
    (s : Channel T) (hs : s = Channel.run T cap ops)
    (hsteal : (s.tryRead).1 = none) (hopen : s.closed = false) :
    (selectDispatch s).1 = none ∧
    (selectDispatch s).2 = { s with readableWaits := s.readableWaits + 1 } := by
  subst hs
  have hinv := Channel.chanInv_run T cap ops
  obtain ⟨hring0, hbw0⟩ := Channel.tryRead_none_empty hinv hsteal
  have hst2 := Channel.tryRead_none_state hsteal
  have heq : (Channel.run T cap ops).tryRead = (none, Channel.run T cap ops) :=
    Prod.ext_iff.mpr ⟨hsteal, hst2⟩
  have hcond : ¬(0 < (Channel.run T cap ops).buffer.length ∨
      0 < (Channel.run T cap ops).blockedWrites.length) := by
    push_neg
    constructor
    · have hlen := hring0.1
      simp at hlen
      omega
    · rw [hbw0]
      simp
  have hwur : (Channel.run T cap ops).waitUntilReadable
      = (WaitOutcome.registered,
        { Channel.run T cap ops with
            readableWaits := (Channel.run T cap ops).readableWaits + 1 }) := by
    simp [Channel.waitUntilReadable, hopen, hcond]
  constructor
  · simp [selectDispatch, heq, hopen]
  · simp [selectDispatch, heq, hopen, hwur]

theorem claim6_witness :
    (selectDispatch (Channel.run Nat 0 [])).1 = none ∧
    (selectDispatch (Channel.run Nat 0 [])).2
      = { Channel.run Nat 0 [] with
          readableWaits := (Channel.run Nat 0 []).readableWaits + 1 } :=
  claim6_steal_safety Nat 0 [] (Channel.run Nat 0 []) rfl (by decide) (by decide)

/-- Claim C7: an abortable promise built over an already-aborted signal does
not invoke the executor at all (no state change, no listener added) and
rejects with `AbortedError` — for both `makeAbortablePromise` and the
`AbortablePromise` class constructor. -/
theorem claim7_preAborted_skips_executor (S E K : Type)
    (executor : S → S × Option (Except E K) × Option (S → S)) (s : S) :
    makeAbortablePromise (some true) executor s
      = ⟨APOutcome.rejectedAborted, s, false, false⟩ ∧
    AbortablePromise (some true) executor s
      = ⟨APOutcome.rejectedAborted, s, false, false⟩ := by
  constructor <;> rfl

/-- Claim C9: `write(undefined)` fails with the argument error even on a
closed channel — the `undefined` check precedes the closed check, so
`CannotWriteIntoClosedChannel` is not raised — and the state is unchanged. -/
theorem claim9_write_undefined_precedes_closed (T : Type) (ch : Channel T)
    (_h : ch.closed = true) :
    (ch.write none).1 = WriteOutcome.errUndefined ∧
    (ch.write none).1 ≠ WriteOutcome.errClosed ∧
    (ch.write none).2 = ch :=
  ⟨rfl, fun hc => WriteOutcome.noConfusion hc, rfl⟩

theorem claim9_witness :
    ((Channel.run Nat 0 [ChanOp.close]).write none).1
      = WriteOutcome.errUndefined ∧
    ((Channel.run Nat 0 [ChanOp.close]).write none).1
      ≠ WriteOutcome.errClosed ∧
    ((Channel.run Nat 0 [ChanOp.close]).write none).2
      = Channel.run Nat 0 [ChanOp.close] :=
  claim9_write_undefined_precedes_closed Nat
    (Channel.run Nat 0 [ChanOp.close]) (by decide)

/-- Claim C10: `select` called with an empty array of channels fails
synchronously with the argument error instead of arming any wait (and so
cannot block forever). -/
theorem claim10_select_empty_errors :
    selectInit ([] : List (Channel Nat))
      = SelectInit.error "select() requires at least one channel" := rfl

/-- Claim C8: for every capacity and every sequence of ring-buffer operations,
`0 ≤ length ≤ capacity` holds; `write` returns `true` and increments `length`
exactly when `length < capacity` beforehand (otherwise it returns `false` and
leaves the buffer unchanged), and `read` returns a value and decrements
`length` exactly when `length > 0` (otherwise it returns `undefined` and
leaves the buffer unchanged). -/
theorem claim8_ring_length_bounds (T : Type) (cap : Nat)
    (ops : List (RingOp T)) (v : T) :
    (0 ≤ (runRing T cap ops).length ∧
      (runRing T cap ops).length ≤ (cap : Int)) ∧
    (((runRing T cap ops).write v).1 = true ↔
      (runRing T cap ops).length < (cap : Int)) ∧
    (((runRing T cap ops).write v).1 = true →
      ((runRing T cap ops).write v).2.length = (runRing T cap ops).length + 1) ∧
    (((runRing T cap ops).write v).1 = false →
      ((runRing T cap ops).write v).2 = runRing T cap ops) ∧
    (((runRing T cap ops).read).1.isSome = true ↔
      0 < (runRing T cap ops).length) ∧
    (((runRing T cap ops).read).1.isSome = true →
      ((runRing T cap ops).read).2.length = (runRing T cap ops).length - 1) ∧
    (((runRing T cap ops).read).1 = none →
      ((runRing T cap ops).read).2 = runRing T cap ops) := by
  obtain ⟨q, hinv, hcap⟩ := FifoRingBuffer.ringInv_runRing T cap ops
  have hlen : (runRing T cap ops).length = (q.length : Int) := hinv.1
  have hle : q.length ≤ cap := by
    have := hinv.2.1
    rwa [hcap] at this
  refine ⟨⟨by omega, by rw [hlen]; exact_mod_cast hle⟩, ?_⟩
  have hwrite : (((runRing T cap ops).write v).1 = true ↔
      (runRing T cap ops).length < (cap : Int)) ∧
      (((runRing T cap ops).write v).1 = true →
        ((runRing T cap ops).write v).2.length
          = (runRing T cap ops).length + 1) ∧
      (((runRing T cap ops).write v).1 = false →
        ((runRing T cap ops).write v).2 = runRing T cap ops) := by
    by_cases hroom : q.length < cap
    · obtain ⟨h1, h2, -⟩ := FifoRingBuffer.write_of_room v hinv
        (by rw [hcap]; exact hroom)
      refine ⟨⟨fun _ => by rw [hlen]; exact_mod_cast hroom, fun _ => h1⟩,
        fun _ => ?_, fun hfalse => ?_⟩
      · have := h2.1
        simp only [List.length_append, List.length_cons, List.length_nil] at this
        rw [this, hlen]
        push_cast
        ring
      · rw [h1] at hfalse
        simp at hfalse
    · have hfull := FifoRingBuffer.write_of_full v hinv
        (by rw [hcap]; exact hroom)
      have h1 : ((runRing T cap ops).write v).1 = false :=
        congrArg Prod.fst hfull
      refine ⟨⟨fun htrue => ?_, fun hlt => ?_⟩, fun htrue => ?_, fun _ => ?_⟩
      · rw [h1] at htrue
        simp at htrue
      · rw [hlen] at hlt
        have : q.length < cap := by exact_mod_cast hlt
        omega
      · rw [h1] at htrue
        simp at htrue
      · exact congrArg Prod.snd hfull
  refine ⟨hwrite.1, hwrite.2.1, hwrite.2.2, ?_⟩
  match hq : q with
  | [] =>
    have hempty := FifoRingBuffer.read_of_empty hinv
    have h1 : ((runRing T cap ops).read).1 = none := congrArg Prod.fst hempty
    refine ⟨⟨fun hsome => ?_, fun hpos => ?_⟩, fun hsome => ?_, fun _ => ?_⟩
    · rw [h1] at hsome
      simp at hsome
    · rw [hlen] at hpos
      simp at hpos
    · rw [h1] at hsome
      simp at hsome
    · exact congrArg Prod.snd hempty
  | w :: rest =>
    obtain ⟨h1, h2, -⟩ := FifoRingBuffer.read_of_nonempty hinv
    refine ⟨⟨fun _ => ?_, fun _ => by rw [h1]; rfl⟩, fun _ => ?_, fun hnone => ?_⟩
    · rw [hlen]
      simp only [List.length_cons]
      positivity
    · have := h2.1
      rw [this, hlen]
      simp only [List.length_cons]
      push_cast
      ring
    · rw [h1] at hnone
      simp at hnone
